import Mathlib

/-!
Verification of the sliding-window rate limiter in `codes/Day 5/3-Practise.py`.

The Python source:

```
RATE_LIMIT_WINDOW = 10  # seconds
RATE_LIMIT_MAX_REQUESTS = 5

user_request_log = {}

def is_rate_limited(ip: str) -> bool:
    now = time.time()
    logs = user_request_log.get(ip,[])
    logs = [t for t in logs if now-t < RATE_LIMIT_WINDOW]
    user_request_log[ip] = logs

    if len(logs)>RATE_LIMIT_MAX_REQUESTS:
        return True
    logs.append(now)
    return False
```

We embed the state `user_request_log` as a total map from client strings to
timestamp lists (absent keys map to `[]`, matching `dict.get(ip, [])`), and
timestamps as rationals.  `check_and_record` is the body of `is_rate_limited`
with the clock injected as a parameter and the window/threshold constants
generalized; `is_rate_limited` instantiates it at the source's constants.
Note the Python aliasing: `user_request_log[ip] = logs` stores the list object
that `logs.append(now)` later mutates, so on admission the stored window is
the pruned list with `now` appended, and on rejection it is the pruned list.
-/

namespace RateLimiter

/-- `RATE_LIMIT_WINDOW = 10` from the source. -/
def RATE_LIMIT_WINDOW : ℚ := 10

/-- `RATE_LIMIT_MAX_REQUESTS = 5` from the source. -/
def RATE_LIMIT_MAX_REQUESTS : ℕ := 5

/-- The `user_request_log` dictionary: a total map, absent keys read as `[]`. -/
def Store : Type := String → List ℚ

/-- The initial empty `user_request_log = {}`. -/
def emptyStore : Store := fun _ => []

/-- `user_request_log.get(ip, [])`. -/
def getLog (s : Store) (ip : String) : List ℚ := s ip

/-- `user_request_log[ip] = l`. -/
def setLog (s : Store) (ip : String) (l : List ℚ) : Store :=
  fun j => if j = ip then l else s j

/-- The pruning comprehension `[t for t in logs if now-t < window]`. -/
def prune (window now : ℚ) (logs : List ℚ) : List ℚ :=
  logs.filter fun t => decide (now - t < window)

/-- The body of `is_rate_limited`, with the clock reading `now` injected as a
parameter and the two module constants generalized.  Returns the decision
(`true` = rate limited / Rejected, `false` = Admitted) and the updated store. -/
def check_and_record (window : ℚ) (maxReq : ℕ) (s : Store) (ip : String)
    (now : ℚ) : Bool × Store :=
  if (prune window now (getLog s ip)).length > maxReq then
    (true, setLog s ip (prune window now (getLog s ip)))
  else
    (false, setLog s ip (prune window now (getLog s ip) ++ [now]))

/-- `is_rate_limited` at the source's constants. -/
def is_rate_limited (s : Store) (ip : String) (now : ℚ) : Bool × Store :=
  check_and_record RATE_LIMIT_WINDOW RATE_LIMIT_MAX_REQUESTS s ip now

/-- Run a sequence of calls `(client_id, now)` left to right, collecting each
decision in order. -/
def runCalls (window : ℚ) (maxReq : ℕ) : Store → List (String × ℚ) →
    Store × List Bool
  | s, [] => (s, [])
  | s, (ip, now) :: rest =>
    let r := check_and_record window maxReq s ip now
    let rest' := runCalls window maxReq r.2 rest
    (rest'.1, r.1 :: rest'.2)

/-- A store is reachable when some call sequence produces it from the empty
initial store. -/
def Reachable (window : ℚ) (maxReq : ℕ) (s : Store) : Prop :=
  ∃ calls : List (String × ℚ), (runCalls window maxReq emptyStore calls).1 = s

/-- Every client's stored timestamp list is sorted (non-decreasing). -/
def SortedStore (s : Store) : Prop :=
  ∀ ip : String, List.Sorted (· ≤ ·) (getLog s ip)

/-- Every stored timestamp is at most `b`. -/
def BoundedBy (b : ℚ) (s : Store) : Prop :=
  ∀ (ip : String) (t : ℚ), t ∈ getLog s ip → t ≤ b

theorem getLog_setLog_same (s : Store) (ip : String) (l : List ℚ) :
    getLog (setLog s ip l) ip = l := by
  simp [getLog, setLog]

theorem getLog_setLog_other (s : Store) (ip j : String) (l : List ℚ)
    (h : j ≠ ip) : getLog (setLog s ip l) j = getLog s j := by
  simp [getLog, setLog, h]

/-- The decision component of `check_and_record`. -/
theorem check_fst (window : ℚ) (maxReq : ℕ) (s : Store) (ip : String)
    (now : ℚ) :
    (check_and_record window maxReq s ip now).1 =
      decide ((prune window now (getLog s ip)).length > maxReq) := by
  unfold check_and_record
  by_cases h : (prune window now (getLog s ip)).length > maxReq <;> simp [h]

/-- The stored window of the called client after `check_and_record`. -/
theorem check_snd_same (window : ℚ) (maxReq : ℕ) (s : Store) (ip : String)
    (now : ℚ) :
    getLog (check_and_record window maxReq s ip now).2 ip =
      (if (prune window now (getLog s ip)).length > maxReq
       then prune window now (getLog s ip)
       else prune window now (getLog s ip) ++ [now]) := by
  unfold check_and_record
  by_cases h : (prune window now (getLog s ip)).length > maxReq <;>
    simp [h, getLog_setLog_same]

/-- The stored window of every other client after `check_and_record`. -/
theorem check_snd_other (window : ℚ) (maxReq : ℕ) (s : Store) (ip : String)
    (now : ℚ) (j : String) (h : j ≠ ip) :
    getLog (check_and_record window maxReq s ip now).2 j = getLog s j := by
  unfold check_and_record
  by_cases hc : (prune window now (getLog s ip)).length > maxReq <;>
    simp [hc, getLog_setLog_other _ _ _ _ h]

/-- Running an appended call sequence runs the two parts in order. -/
theorem runCalls_append (window : ℚ) (maxReq : ℕ) (l₁ l₂ : List (String × ℚ)) :
    ∀ s : Store, runCalls window maxReq s (l₁ ++ l₂) =
      ((runCalls window maxReq (runCalls window maxReq s l₁).1 l₂).1,
       (runCalls window maxReq s l₁).2 ++
         (runCalls window maxReq (runCalls window maxReq s l₁).1 l₂).2) := by
  induction l₁ with
  | nil => intro s; simp [runCalls]
  | cons a l ih =>
    intro s
    obtain ⟨ip, now⟩ := a
    simp [runCalls, ih]

/-- Filtering out a present element strictly shrinks the list. -/
theorem length_filter_lt_of_mem {α : Type} (p : α → Bool) (x : α) :
    ∀ l : List α, x ∈ l → p x = false → (l.filter p).length < l.length := by
  intro l
  induction l with
  | nil => intro h; cases h
  | cons a l ih =>
    intro hx hpx
    rcases List.mem_cons.mp hx with h | h
    · subst h
      simp only [List.filter_cons, hpx]
      simpa using Nat.lt_succ_of_le (List.length_filter_le p l)
    · cases hpa : p a <;> simp only [List.filter_cons, hpa] <;> simp
      · exact Nat.lt_succ_of_lt (ih h hpx)
      · exact ih h hpx

/-- Per-client windows stay at most `maxReq + 1` long throughout any run. -/
theorem run_length_le (window : ℚ) (maxReq : ℕ) :
    ∀ (calls : List (String × ℚ)) (s : Store),
      (∀ ip, (getLog s ip).length ≤ maxReq + 1) →
      ∀ ip, (getLog (runCalls window maxReq s calls).1 ip).length ≤ maxReq + 1 := by
  intro calls
  induction calls with
  | nil => intro s hs ip; simpa [runCalls] using hs ip
  | cons a rest ih =>
    intro s hs ip
    obtain ⟨jp, m⟩ := a
    simp only [runCalls]
    apply ih
    intro k
    by_cases hk : k = jp
    · subst hk
      rw [check_snd_same]
      by_cases hc : (prune window m (getLog s k)).length > maxReq
      · simp only [if_pos hc]
        exact le_trans (List.length_filter_le _ _) (hs k)
      · simp only [if_neg hc, List.length_append, List.length_singleton]
        omega
    · rw [check_snd_other _ _ _ _ _ _ hk]
      exact hs k

/-- C1: after pruning, `check_and_record` returns Rejected (`true`) exactly
when the count of remaining timestamps strictly exceeds `maxReq`; in that case
the stored window is the pruned list (nothing appended), otherwise `now` is
appended and the call returns Admitted (`false`). -/
theorem c1_decision_iff_count_exceeds (window : ℚ) (maxReq : ℕ) (s : Store)
    (ip : String) (now : ℚ) :
    (check_and_record window maxReq s ip now).1 =
      decide ((prune window now (getLog s ip)).length > maxReq) ∧
    getLog (check_and_record window maxReq s ip now).2 ip =
      (if (prune window now (getLog s ip)).length > maxReq
       then prune window now (getLog s ip)
       else prune window now (getLog s ip) ++ [now]) :=
  ⟨check_fst window maxReq s ip now, check_snd_same window maxReq s ip now⟩

/-- **C10.** A call on a previously unseen client (empty stored window, e.g.
any fresh string key, including `""`) is Admitted and leaves a one-element
window `[now]` for that client. -/
theorem c10_fresh_client_admitted (window : ℚ) (maxReq : ℕ) (s : Store)
    (ip : String) (now : ℚ) (hfresh : getLog s ip = []) :
    (check_and_record window maxReq s ip now).1 = false ∧
    getLog (check_and_record window maxReq s ip now).2 ip = [now] := by
  unfold check_and_record
  simp [hfresh, prune, getLog_setLog_same]

/-- Witness for C10: the empty string as client id, on the initial store. -/
theorem c10_witness :
    (check_and_record 10 5 emptyStore "" 0).1 = false ∧
    getLog (check_and_record 10 5 emptyStore "" 0).2 "" = [0] :=
  c10_fresh_client_admitted 10 5 emptyStore "" 0 rfl

/-- C2 counterexample: with `window = 10`, `max = 5`, after five admitted
calls at `t = 0,1,2,3,4` for client "A", the 6th call at `t = 4.5` is
Admitted (`false`), not Rejected as the claim states: the threshold test
compares the pre-append count 5 with `> 5`, which fails. -/
theorem c2_counterexample :
    (runCalls 10 5 emptyStore
        [("A", 0), ("A", 1), ("A", 2), ("A", 3), ("A", 4), ("A", 4.5)]).2 =
      [false, false, false, false, false, false] := by
  norm_num [runCalls, check_and_record, prune, getLog, setLog, emptyStore]

/-- C2 (amended): the five calls at `t = 0..4` and the 6th call at `t = 4.5`
are all Admitted, a 7th call at `t = 4.5` is Rejected, and a subsequent call
at `t = 15` is Admitted; in general one additional call immediately after a
client has accumulated more than `maxReq` admitted requests within the window
yields Rejected. -/
theorem c2_amended :
    ((runCalls 10 5 emptyStore
        [("A", 0), ("A", 1), ("A", 2), ("A", 3), ("A", 4), ("A", 4.5),
         ("A", 4.5), ("A", 15)]).2 =
      [false, false, false, false, false, false, true, false]) ∧
    (∀ (window : ℚ) (maxReq : ℕ) (s : Store) (ip : String) (now : ℚ),
      maxReq < (getLog s ip).length →
      (∀ t ∈ getLog s ip, now - t < window) →
      (check_and_record window maxReq s ip now).1 = true) := by
  constructor
  · norm_num [runCalls, check_and_record, prune, getLog, setLog, emptyStore]
  · intro window maxReq s ip now hlen hin
    rw [check_fst]
    have hp : prune window now (getLog s ip) = getLog s ip :=
      List.filter_eq_self.mpr fun a ha => decide_eq_true (hin a ha)
    rw [hp]
    exact decide_eq_true hlen

/-- Witness for the general clause of the amended C2: a client with six
stored timestamps all inside the window is rejected on the next call. -/
theorem c2_witness :
    (check_and_record 10 5 (setLog emptyStore "A" [0, 0, 0, 0, 0, 0])
        "A" 5).1 = true :=
  c2_amended.2 10 5 (setLog emptyStore "A" [0, 0, 0, 0, 0, 0]) "A" 5
    (by simp [getLog, setLog])
    (by norm_num [getLog, setLog])

/-- C4 counterexample: a timestamp that is exactly `window` old — here `0`
with `now = 10` and `window = 10`, so `0 = now - window` — is removed by the
prune, not retained as the claim states. -/
theorem c4_counterexample :
    (0 : ℚ) = 10 - 10 ∧ prune 10 10 [0] = [] := by
  constructor
  · norm_num
  · norm_num [prune]

/-- C4 (amended): the prune keeps exactly the timestamps `t` with
`now - t < window`; equivalently it removes exactly those with
`t ≤ now - window`, so a timestamp exactly `window` old is removed. -/
theorem c4_amended (window now : ℚ) (logs : List ℚ) (u : ℚ) :
    (u ∈ prune window now logs ↔ u ∈ logs ∧ now - u < window) ∧
    prune window now logs = logs.filter fun t => decide (now - window < t) := by
  constructor
  · simp [prune, List.mem_filter]
  · unfold prune
    apply List.filter_congr
    intro t _
    simp only [decide_eq_decide]
    exact sub_lt_comm

/-- A burst of identical-instant calls: starting from a window that already
holds `j` copies of `now`, the next `k` calls are all admitted as long as
`j + k` stays at or below `maxReq + 1`, and the window fills up accordingly. -/
theorem run_burst (window : ℚ) (maxReq : ℕ) (ip : String) (now : ℚ)
    (hw : 0 < window) :
    ∀ (k j : ℕ) (s : Store), getLog s ip = List.replicate j now →
      j + k ≤ maxReq + 1 →
      (runCalls window maxReq s (List.replicate k (ip, now))).2 =
        List.replicate k false ∧
      getLog (runCalls window maxReq s (List.replicate k (ip, now))).1 ip =
        List.replicate (j + k) now := by
  intro k
  induction k with
  | zero => intro j s hs _; simpa [runCalls] using hs
  | succ k ih =>
    intro j s hs hle
    have hprune : prune window now (getLog s ip) = List.replicate j now := by
      rw [hs]
      apply List.filter_eq_self.mpr
      intro a ha
      have ha' := List.eq_of_mem_replicate ha
      subst ha'
      simpa using hw
    have hj : ¬ (prune window now (getLog s ip)).length > maxReq := by
      rw [hprune, List.length_replicate]
      omega
    have hcall : check_and_record window maxReq s ip now =
        (false, setLog s ip (List.replicate (j + 1) now)) := by
      unfold check_and_record
      rw [if_neg hj, hprune, ← List.replicate_succ']
    rw [List.replicate_succ]
    simp only [runCalls, hcall]
    obtain ⟨h1, h2⟩ := ih (j + 1) (setLog s ip (List.replicate (j + 1) now))
      (getLog_setLog_same s ip _) (by omega)
    refine ⟨by rw [h1, List.replicate_succ], ?_⟩
    rw [h2]
    congr 1
    omega

/-- C3: from a fresh store, `maxReq + 1` calls for the same client all at the
same instant are every one Admitted, and the next call at that same instant
is Rejected. -/
theorem c3_same_instant_burst (window : ℚ) (maxReq : ℕ) (ip : String)
    (now : ℚ) (hw : 0 < window) :
    (runCalls window maxReq emptyStore
        (List.replicate (maxReq + 2) (ip, now))).2 =
      List.replicate (maxReq + 1) false ++ [true] := by
  rw [List.replicate_succ' (maxReq + 1) (ip, now), runCalls_append]
  obtain ⟨h1, h2⟩ := run_burst window maxReq ip now hw (maxReq + 1) 0
    emptyStore rfl (by omega)
  rw [h1]
  have hprune : prune window now
      (getLog (runCalls window maxReq emptyStore
        (List.replicate (maxReq + 1) (ip, now))).1 ip) =
      List.replicate (maxReq + 1) now := by
    rw [h2, Nat.zero_add]
    apply List.filter_eq_self.mpr
    intro a ha
    have ha' := List.eq_of_mem_replicate ha
    subst ha'
    simpa using hw
  have hgt : (prune window now
      (getLog (runCalls window maxReq emptyStore
        (List.replicate (maxReq + 1) (ip, now))).1 ip)).length > maxReq := by
    rw [hprune, List.length_replicate]
    omega
  have hlast : (check_and_record window maxReq
      (runCalls window maxReq emptyStore
        (List.replicate (maxReq + 1) (ip, now))).1 ip now).1 = true := by
    rw [check_fst]
    exact decide_eq_true hgt
  have hsingle : (runCalls window maxReq
      (runCalls window maxReq emptyStore
        (List.replicate (maxReq + 1) (ip, now))).1 [(ip, now)]).2 = [true] := by
    show [(check_and_record window maxReq
      (runCalls window maxReq emptyStore
        (List.replicate (maxReq + 1) (ip, now))).1 ip now).1] = [true]
    rw [hlast]
  rw [hsingle]

/-- Witness for C3 at the source constants: seven same-instant calls give six
admissions then a rejection. -/
theorem c3_witness :
    0 < (10 : ℚ) ∧
    (runCalls 10 5 emptyStore (List.replicate 7 ("A", 0))).2 =
      List.replicate 6 false ++ [true] :=
  ⟨by decide, c3_same_instant_burst 10 5 "A" 0 (by decide)⟩

/-- Pruning preserves sortedness (it is a filter, hence a sublist). -/
theorem prune_sorted (window now : ℚ) (l : List ℚ)
    (h : List.Sorted (· ≤ ·) l) : List.Sorted (· ≤ ·) (prune window now l) :=
  List.Pairwise.sublist (List.filter_sublist l) h

/-- One call preserves sortedness of every window and keeps all stored
timestamps at most `now`, provided they were at most `now` before. -/
theorem step_sorted (window : ℚ) (maxReq : ℕ) (s : Store) (ip : String)
    (now : ℚ) (hs : SortedStore s) (hb : BoundedBy now s) :
    SortedStore (check_and_record window maxReq s ip now).2 ∧
    BoundedBy now (check_and_record window maxReq s ip now).2 := by
  have hmem : ∀ t ∈ prune window now (getLog s ip), t ∈ getLog s ip :=
    fun t ht => (List.mem_filter.mp ht).1
  constructor
  · intro j
    by_cases hj : j = ip
    · subst hj
      rw [check_snd_same]
      by_cases hc : (prune window now (getLog s j)).length > maxReq
      · rw [if_pos hc]
        exact prune_sorted _ _ _ (hs j)
      · rw [if_neg hc, List.Sorted, List.pairwise_append]
        refine ⟨prune_sorted _ _ _ (hs j), List.pairwise_singleton _ _, ?_⟩
        intro a ha b hbm
        rw [List.mem_singleton] at hbm
        subst hbm
        exact hb j a (hmem a ha)
    · rw [check_snd_other _ _ _ _ _ _ hj]
      exact hs j
  · intro j t ht
    by_cases hj : j = ip
    · subst hj
      rw [check_snd_same] at ht
      by_cases hc : (prune window now (getLog s j)).length > maxReq
      · rw [if_pos hc] at ht
        exact hb j t (hmem t ht)
      · rw [if_neg hc] at ht
        rcases List.mem_append.mp ht with h | h
        · exact hb j t (hmem t h)
        · rw [List.mem_singleton] at h
          subst h
          exact le_refl t
    · rw [check_snd_other _ _ _ _ _ _ hj] at ht
      exact hb j t ht

/-- After a call, every timestamp in the called client's window is within
`window` of the `now` of that call. -/
theorem step_within (window : ℚ) (maxReq : ℕ) (s : Store) (ip : String)
    (now : ℚ) (hw : 0 ≤ window) :
    ∀ t ∈ getLog (check_and_record window maxReq s ip now).2 ip,
      now - t ≤ window := by
  intro t ht
  rw [check_snd_same] at ht
  have hfil : ∀ u ∈ prune window now (getLog s ip), now - u ≤ window := by
    intro u hu
    have := (List.mem_filter.mp hu).2
    rw [decide_eq_true_iff] at this
    exact le_of_lt this
  by_cases hc : (prune window now (getLog s ip)).length > maxReq
  · rw [if_pos hc] at ht
    exact hfil t ht
  · rw [if_neg hc] at ht
    rcases List.mem_append.mp ht with h | h
    · exact hfil t h
    · rw [List.mem_singleton] at h
      subst h
      simpa using hw

/-- Running calls with non-decreasing times from a sorted, time-bounded store
keeps every window sorted. -/
theorem run_sorted_aux (window : ℚ) (maxReq : ℕ) :
    ∀ (calls : List (String × ℚ)) (s : Store) (b : ℚ),
      SortedStore s → BoundedBy b s →
      List.Chain' (· ≤ ·) (b :: calls.map Prod.snd) →
      SortedStore (runCalls window maxReq s calls).1 := by
  intro calls
  induction calls with
  | nil => intro s b hs _ _; simpa [runCalls] using hs
  | cons a rest ih =>
    intro s b hs hb hch
    obtain ⟨jp, m⟩ := a
    simp only [List.map_cons] at hch
    rw [List.chain'_cons] at hch
    have hbm : BoundedBy m s := fun j t ht => le_trans (hb j t ht) hch.1
    obtain ⟨hs', hb'⟩ := step_sorted window maxReq s jp m hs hbm
    simp only [runCalls]
    exact ih (check_and_record window maxReq s jp m).2 m hs' hb' hch.2

/-- From the empty store, any call sequence with non-decreasing times keeps
every window sorted. -/
theorem run_sorted_empty (window : ℚ) (maxReq : ℕ)
    (calls : List (String × ℚ))
    (hch : List.Chain' (· ≤ ·) (calls.map Prod.snd)) :
    SortedStore (runCalls window maxReq emptyStore calls).1 := by
  cases calls with
  | nil =>
    intro ip
    simp [runCalls, emptyStore, getLog]
  | cons a rest =>
    apply run_sorted_aux window maxReq (a :: rest) emptyStore a.2
    · intro ip
      simp [emptyStore, getLog]
    · intro ip t ht
      simp [emptyStore, getLog] at ht
    · simp only [List.map_cons]
      rw [List.chain'_cons]
      refine ⟨le_refl _, ?_⟩
      simpa using hch

/-- C5: along any call sequence with non-decreasing now values (written as an
arbitrary prefix `pre` followed by the call just made), every client's stored
timestamp list is sorted non-decreasingly, and every timestamp left in the
just-called client's window is within `window` of that call's `now`. -/
theorem c5_monotone_and_within (window : ℚ) (maxReq : ℕ)
    (pre : List (String × ℚ)) (ip : String) (now : ℚ) (hw : 0 ≤ window)
    (hmono : List.Chain' (· ≤ ·) ((pre ++ [(ip, now)]).map Prod.snd)) :
    SortedStore (runCalls window maxReq emptyStore (pre ++ [(ip, now)])).1 ∧
    ∀ t ∈ getLog (runCalls window maxReq emptyStore (pre ++ [(ip, now)])).1 ip,
      now - t ≤ window := by
  refine ⟨run_sorted_empty window maxReq _ hmono, ?_⟩
  rw [runCalls_append]
  intro t ht
  have hstate : (runCalls window maxReq
      (runCalls window maxReq emptyStore pre).1 [(ip, now)]).1 =
      (check_and_record window maxReq
        (runCalls window maxReq emptyStore pre).1 ip now).2 := rfl
  rw [hstate] at ht
  exact step_within window maxReq _ ip now hw t ht

/-- Witness for C5: calls for "A" at 0, "B" at 1, then "A" at 2, window 10. -/
theorem c5_witness :
    SortedStore (runCalls 10 5 emptyStore
      [("A", 0), ("B", 1), ("A", 2)]).1 ∧
    ∀ t ∈ getLog (runCalls 10 5 emptyStore
      [("A", 0), ("B", 1), ("A", 2)]).1 "A", 2 - t ≤ 10 :=
  c5_monotone_and_within 10 5 [("A", 0), ("B", 1)] "A" 2 (by decide)
    (by norm_num [List.chain'_cons])

/-- C6: a call mutates only the called client's entry — every other client's
window is unchanged — and the called client's stored window is its pruned
contents, with `now` appended only on an Admitted (`false`) outcome; on a
Rejected outcome the prune alone is persisted. -/
theorem c6_frame (window : ℚ) (maxReq : ℕ) (s : Store) (ip : String)
    (now : ℚ) (j : String) (hne : j ≠ ip) :
    getLog (check_and_record window maxReq s ip now).2 j = getLog s j ∧
    getLog (check_and_record window maxReq s ip now).2 ip =
      prune window now (getLog s ip) ++
        (if (check_and_record window maxReq s ip now).1 = true then []
         else [now]) := by
  refine ⟨check_snd_other _ _ _ _ _ _ hne, ?_⟩
  rw [check_fst, check_snd_same]
  by_cases hc : (prune window now (getLog s ip)).length > maxReq <;>
    simp [hc]

/-- Witness for C6: a rejected call for "A" leaves "B" untouched and persists
exactly the pruned window for "A". -/
theorem c6_witness :
    getLog (check_and_record 10 5
        (setLog emptyStore "A" [0, 0, 0, 0, 0, 0]) "A" 0).2 "B" =
      getLog (setLog emptyStore "A" [0, 0, 0, 0, 0, 0]) "B" ∧
    getLog (check_and_record 10 5
        (setLog emptyStore "A" [0, 0, 0, 0, 0, 0]) "A" 0).2 "A" =
      prune 10 0 (getLog (setLog emptyStore "A" [0, 0, 0, 0, 0, 0]) "A") ++
        (if (check_and_record 10 5
            (setLog emptyStore "A" [0, 0, 0, 0, 0, 0]) "A" 0).1 = true then []
         else [0]) :=
  c6_frame 10 5 (setLog emptyStore "A" [0, 0, 0, 0, 0, 0]) "A" 0 "B"
    (by decide)

/-- C9: in every store reachable from the empty one by any call sequence,
no client's window ever holds more than `maxReq + 1` timestamps. -/
theorem c9_window_bounded (window : ℚ) (maxReq : ℕ) (s : Store)
    (h : Reachable window maxReq s) (ip : String) :
    (getLog s ip).length ≤ maxReq + 1 := by
  obtain ⟨calls, hc⟩ := h
  rw [← hc]
  exact run_length_le window maxReq calls emptyStore
    (fun k => by simp [getLog, emptyStore]) ip

/-- Witness for C9: after seven same-instant calls for "A" the window holds
six timestamps, within the bound `5 + 1`. -/
theorem c9_witness :
    (getLog (runCalls 10 5 emptyStore
        [("A", 0), ("A", 0), ("A", 0), ("A", 0), ("A", 0), ("A", 0),
         ("A", 0)]).1 "A").length ≤ 5 + 1 :=
  c9_window_bounded 10 5 _ ⟨_, rfl⟩ "A"

/-- C7: if a rejected client's oldest recorded timestamp `o` is more than
`window` in the past at the time `now'` of a later call, that later call is
Admitted: the prune drops at least the oldest entry of the (reachable, hence
at most `maxReq + 1` long) window, freeing capacity. -/
theorem c7_recovery (window : ℚ) (maxReq : ℕ) (s : Store) (ip : String)
    (now now' o : ℚ) (hreach : Reachable window maxReq s)
    (hrej : (check_and_record window maxReq s ip now).1 = true)
    (ho : o ∈ getLog (check_and_record window maxReq s ip now).2 ip)
    (hmin : ∀ t ∈ getLog (check_and_record window maxReq s ip now).2 ip,
      o ≤ t)
    (hadv : window < now' - o) :
    (check_and_record window maxReq
        (check_and_record window maxReq s ip now).2 ip now').1 = false := by
  obtain ⟨calls, hcalls⟩ := hreach
  have hbound : (getLog s ip).length ≤ maxReq + 1 := by
    rw [← hcalls]
    exact run_length_le window maxReq calls emptyStore
      (fun k => by simp [getLog, emptyStore]) ip
  have hsame : getLog (check_and_record window maxReq s ip now).2 ip =
      prune window now (getLog s ip) := by
    have hcond : (prune window now (getLog s ip)).length > maxReq := by
      have hfst := check_fst window maxReq s ip now
      rw [hrej] at hfst
      exact of_decide_eq_true hfst.symm
    rw [check_snd_same, if_pos hcond]
  have hlen1 : (getLog (check_and_record window maxReq s ip now).2 ip).length
      ≤ maxReq + 1 := by
    rw [hsame]
    exact le_trans (List.length_filter_le _ _) hbound
  rw [check_fst]
  apply decide_eq_false
  intro hgt
  have hdrop : (prune window now'
      (getLog (check_and_record window maxReq s ip now).2 ip)).length <
      (getLog (check_and_record window maxReq s ip now).2 ip).length := by
    apply length_filter_lt_of_mem _ o _ ho
    apply decide_eq_false
    intro hlt
    linarith
  omega

/-- Witness for C7: "A" is rejected on the seventh same-instant call at 0;
at `now' = 11` (more than `10` past the oldest timestamp `0`) it is admitted
again. -/
theorem c7_witness :
    (check_and_record 10 5
        (check_and_record 10 5
          (runCalls 10 5 emptyStore
            [("A", 0), ("A", 0), ("A", 0), ("A", 0), ("A", 0), ("A", 0)]).1
          "A" 0).2 "A" 11).1 = false :=
  c7_recovery 10 5
    (runCalls 10 5 emptyStore
      [("A", 0), ("A", 0), ("A", 0), ("A", 0), ("A", 0), ("A", 0)]).1
    "A" 0 11 0 ⟨_, rfl⟩
    (by norm_num [runCalls, check_and_record, prune, getLog, setLog,
      emptyStore])
    (by norm_num [runCalls, check_and_record, prune, getLog, setLog,
      emptyStore])
    (by norm_num [runCalls, check_and_record, prune, getLog, setLog,
      emptyStore])
    (by norm_num)

/-- A call on an empty window admits and stores the singleton `[t]`. -/
theorem check_empty (window : ℚ) (maxReq : ℕ) (s : Store) (ip : String)
    (t : ℚ) (hs : getLog s ip = []) :
    check_and_record window maxReq s ip t = (false, setLog s ip [t]) := by
  unfold check_and_record
  rw [hs]
  simp [prune]

/-- A call on a singleton window whose timestamp is more than `window` in the
past prunes it away, admits, and stores the singleton `[t]`. -/
theorem check_singleton_far (window : ℚ) (maxReq : ℕ) (s : Store)
    (ip : String) (t0 t : ℚ) (hs : getLog s ip = [t0])
    (hfar : t0 + window < t) :
    check_and_record window maxReq s ip t = (false, setLog s ip [t]) := by
  have hp : prune window t (getLog s ip) = [] := by
    rw [hs]
    unfold prune
    rw [List.filter_cons]
    have hd : decide (t - t0 < window) = false := by
      apply decide_eq_false
      intro hlt
      linarith
    rw [hd]
    simp
  unfold check_and_record
  rw [hp]
  simp

/-- Calls for one client at times spaced more than `window` apart, starting
from an empty or single-far-timestamp window: every call admits, and the
window ends as the singleton of the last time (or is unchanged when there is
no call). -/
theorem c8_aux (window : ℚ) (maxReq : ℕ) (ip : String) :
    ∀ (times : List ℚ) (s : Store),
      (getLog s ip = [] ∨
        ∃ t0, getLog s ip = [t0] ∧ ∀ u ∈ times.head?, t0 + window < u) →
      List.Chain' (fun a b => a + window < b) times →
      (runCalls window maxReq s (times.map fun t => (ip, t))).2 =
        times.map (fun _ => false) ∧
      getLog (runCalls window maxReq s (times.map fun t => (ip, t))).1 ip =
        (match times.getLast? with
         | none => getLog s ip
         | some t => [t]) := by
  intro times
  induction times with
  | nil => intro s _ _; simp [runCalls]
  | cons t rest ih =>
    intro s hstart hch
    have hcall : check_and_record window maxReq s ip t =
        (false, setLog s ip [t]) := by
      rcases hstart with h | ⟨t0, h0, hfar⟩
      · exact check_empty window maxReq s ip t h
      · exact check_singleton_far window maxReq s ip t0 t h0
          (hfar t (by simp))
    rw [List.chain'_cons'] at hch
    obtain ⟨hhead, hch'⟩ := hch
    obtain ⟨ih1, ih2⟩ := ih (setLog s ip [t])
      (Or.inr ⟨t, getLog_setLog_same s ip [t], fun u hu => hhead u hu⟩) hch'
    simp only [List.map_cons, runCalls, hcall]
    refine ⟨by rw [ih1], ?_⟩
    rw [ih2]
    cases rest with
    | nil => simp [getLog_setLog_same]
    | cons u r =>
      rw [List.getLast?_cons_cons]
      cases hlast : (u :: r).getLast? with
      | none => simp at hlast
      | some v => rfl

/-- C8: for one client, any sequence of calls at times spaced strictly more
than `window` apart (hence strictly increasing) is admitted at every call,
and after each call the client's stored window holds exactly the one
timestamp of that call. -/
theorem c8_spaced_calls (window : ℚ) (maxReq : ℕ) (ip : String)
    (times : List ℚ) (s : Store) (hempty : getLog s ip = [])
    (hsp : List.Chain' (fun a b => a + window < b) times) :
    (runCalls window maxReq s (times.map fun t => (ip, t))).2 =
      times.map (fun _ => false) ∧
    ∀ (pre : List ℚ) (t : ℚ) (post : List ℚ), times = pre ++ t :: post →
      getLog (runCalls window maxReq s
        ((pre ++ [t]).map fun u => (ip, u))).1 ip = [t] := by
  constructor
  · exact (c8_aux window maxReq ip times s (Or.inl hempty) hsp).1
  · intro pre t post hdecomp
    have hsp' : List.Chain' (fun a b => a + window < b) (pre ++ [t]) := by
      have : times = (pre ++ [t]) ++ post := by
        rw [hdecomp]
        simp
      rw [this] at hsp
      exact (List.chain'_append.mp hsp).1
    obtain ⟨_, h2⟩ := c8_aux window maxReq ip (pre ++ [t]) s
      (Or.inl hempty) hsp'
    rw [h2, List.getLast?_concat]

/-- Witness for C8: calls for "A" at 0, 11, 22 with window 10: all admitted,
and after the second call the window is exactly `[11]`. -/
theorem c8_witness :
    (runCalls 10 5 emptyStore [("A", 0), ("A", 11), ("A", 22)]).2 =
      [false, false, false] ∧
    getLog (runCalls 10 5 emptyStore [("A", 0), ("A", 11)]).1 "A" = [11] := by
  have h := c8_spaced_calls 10 5 "A" [0, 11, 22] emptyStore rfl
    (by norm_num [List.chain'_cons])
  exact ⟨h.1, h.2 [0] 11 [22] rfl⟩

end RateLimiter
